import Mathlib

/-!
Verification development for the pyranha Python layer of the piranha sparse
symbolic series algebra library.

The repository ships the Python exposition layer (pyranha) of a C++ engine.
The engine itself (the `_core` extension module) is not part of the sources,
so its behaviour (series arithmetic, exact division, GCD, truncation,
multiplication threading, serialization, custom derivatives) is modelled here
from the specification, while the Python-side logic (argument checking,
format deduction rules, module imports, evaluation-dictionary validation) is
embedded directly from the Python sources.

The embedding uses:
- a dense univariate coefficient-list model for series ring arithmetic,
  exact division and GCD (the univariate instance of the spec's series
  algebra over the rational coefficient ring);
- a sparse (exponent-vector, coefficient) term-list model for term-merging,
  degree truncation and the threaded multiplication engine;
- explicit token streams for the serialization layer;
- explicit heaps for object-identity and snapshot (deep-copy) properties.
-/

namespace Pyranha

/-- Exception kinds of the error taxonomy (spec section 7): the Python layer
surfaces TypeError, ValueError, ZeroDivisionError, ArithmeticError,
OverflowError, NotImplementedError and ImportError kinds. -/
inductive PyExc where
  | typeError
  | valueError
  | zeroDivisionError
  | arithmeticError
  | overflowError
  | notImplementedError
  | importError
deriving DecidableEq, Repr

/-! ## Dense univariate series model: ring arithmetic, exact division, GCD

Modelled from the spec (sections 3, 4.2, 4.3, 4.4): a series is a sparse sum
of (monomial, coefficient) terms; here we take the univariate instance over
the rational coefficient ring, represented as the list of coefficients in
increasing exponent order.  `C++ series arithmetic, exact division and GCD
are not part of src/`; only their Python callers and tests are. -/

/-- Coefficient list of a univariate series over ℚ, lowest exponent first.
Trailing zero coefficients are allowed and mean the same series (the term
container erases zero coefficients; equality is canonical). -/
abbrev Poly := List ℚ

/-- Coefficient of the term of exponent `n` (0 when absent). -/
def coeffP (p : Poly) (n : Nat) : ℚ := p.getD n 0

/-- Modelled from the spec: series addition merges the two term containers by
coefficient addition (spec 4.2). -/
def padd : Poly → Poly → Poly
  | [], q => q
  | p, [] => p
  | a :: p, b :: q => (a + b) :: padd p q

/-- Modelled from the spec: negation is a term-wise map (spec 4.2). -/
def pneg (p : Poly) : Poly := p.map (fun c => -c)

/-- Series subtraction, `padd` with the negated subtrahend. -/
def psub (p q : Poly) : Poly := padd p (pneg q)

/-- Modelled from the spec: scalar multiplication is a term-wise map
(spec 4.2). -/
def psmul (c : ℚ) (p : Poly) : Poly := p.map (fun a => c * a)

/-- Multiplication by the monomial of exponent `k` (exponent shift). -/
def pshift (k : Nat) (p : Poly) : Poly := List.replicate k 0 ++ p

/-- Modelled from the spec: series multiplication produces, for each pair of
terms, the candidate term with multiplied monomials and coefficients, and
accumulates the candidates (spec 4.3). -/
def pmul : Poly → Poly → Poly
  | [], _ => []
  | a :: p, q => padd (psmul a q) ((0 : ℚ) :: pmul p q)

/-- Canonical size of a series: 0 for the zero series, and one more than the
degree otherwise (zero coefficients beyond position `degP p - 1` are
ignored, matching canonical term erasure). -/
def degP : Poly → Nat
  | [] => 0
  | a :: p =>
    match degP p with
    | 0 => if a = 0 then 0 else 1
    | d + 1 => d + 2

/-- Leading coefficient (0 for the zero series). -/
def leadP (p : Poly) : ℚ := coeffP p (degP p - 1)

/-- Modelled from the spec: one long-division pass.  While the running
remainder has size at least the divisor's, the leading terms are cancelled
and the quotient accumulates the corresponding monomial; the fuel argument
bounds the number of cancellation steps. -/
def divRemAux : Nat → Poly → Poly → Poly × Poly
  | 0, r, _ => ([], r)
  | f + 1, r, b =>
    if degP r < degP b then ([], r)
    else
      (padd
        (divRemAux f
          (psub r (pshift (degP r - degP b) (psmul (leadP r / leadP b) b))) b).1
        (pshift (degP r - degP b) [leadP r / leadP b]),
       (divRemAux f
          (psub r (pshift (degP r - degP b) (psmul (leadP r / leadP b) b))) b).2)

/-- Quotient and remainder of series division (`degP a` cancellation steps
always suffice). -/
def pdivRem (a b : Poly) : Poly × Poly := divRemAux (degP a) a b

/-- Modelled from the spec: series division is exact division only; it fails
with a ZeroDivisionError kind when the divisor is the additive identity and
with an ArithmeticError kind when no exact quotient exists (spec 4.3). -/
def pdiv (a b : Poly) : Except PyExc Poly :=
  if degP b = 0 then .error .zeroDivisionError
  else if degP (pdivRem a b).2 = 0 then .ok (pdivRem a b).1
  else .error .arithmeticError

/-- Euclidean GCD on the dense model, fuelled by the size of the second
argument. -/
def egcdAux : Nat → Poly → Poly → Poly
  | 0, a, _ => a
  | f + 1, a, b => if degP b = 0 then a else egcdAux f b (pdivRem a b).2

/-- Modelled from the spec: the GCD engine computes a polynomial greatest
common divisor, determined only up to sign (spec 4.4). -/
def egcd (a b : Poly) : Poly := egcdAux (degP b + 1) a b

/-- Sign normalization: flips the sign so that the leading coefficient is
non-negative (GCD results are canonical only up to sign). -/
def normSign (p : Poly) : Poly := if leadP p < 0 then pneg p else p

/-- Selectable GCD algorithms (spec 4.4 and the exposed
`polynomial_gcd_algorithm` enum): automatic dispatch, subresultant PRS, and
the heuristic algorithm. -/
inductive GcdAlgo where
  | automatic
  | prs_sr
  | heuristic
deriving DecidableEq, Repr

/-- Modelled from the spec: the heuristic GCD algorithm may fail (spec 4.4
makes `automatic` fall back to PRS on heuristic failure); in this model it
always succeeds and returns the sign-normalized GCD. -/
def heuristicGcd (a b : Poly) : Option Poly := some (normSign (egcd a b))

/-- Modelled from the spec: the subresultant-PRS GCD algorithm (here the
Euclidean remainder sequence of the dense model, un-normalized). -/
def prsGcd (a b : Poly) : Poly := egcd a b

/-- Modelled from the spec: algorithm dispatch for the GCD engine;
`automatic` selects the heuristic first and falls back to subresultant PRS
on failure (spec 4.4). -/
def gcdWithAlgo : GcdAlgo → Poly → Poly → Poly
  | .heuristic, a, b => (heuristicGcd a b).getD (prsGcd a b)
  | .prs_sr, a, b => prsGcd a b
  | .automatic, a, b => (heuristicGcd a b).getD (prsGcd a b)

/-- Modelled from the spec: a polynomial seen by the GCD entry point carries
its coefficient-ring identifier (mixed-ring inputs are rejected), the lowest
exponent appearing in it (negative exponents are rejected), and its
coefficient list starting at that lowest exponent. -/
structure PolySeries where
  rid : Nat
  low : Int
  cfs : Poly
deriving DecidableEq, Repr

/-- Plain coefficient-list form of a `PolySeries` with non-negative `low`:
the list shifted up by the lowest exponent. -/
def seriesRepr (x : PolySeries) : Poly := pshift x.low.toNat x.cfs

/-- Modelled from the spec: the GCD entry point checks that both inputs are
from the same ring (else a TypeError kind) and have non-negative exponents
(else a ValueError kind), then runs the selected algorithm (spec 4.4 and the
`gcd` wrapper in pyranha/math.py). -/
def seriesGcd (algo : GcdAlgo) (x y : PolySeries) : Except PyExc PolySeries :=
  if x.rid ≠ y.rid then .error .typeError
  else if x.low < 0 ∨ y.low < 0 then .error .valueError
  else .ok ⟨x.rid, 0, gcdWithAlgo algo (seriesRepr x) (seriesRepr y)⟩

/-- Semantics of the dense model: the rational polynomial it denotes. -/
noncomputable def toP : Poly → Polynomial ℚ
  | [] => 0
  | a :: p => Polynomial.C a + Polynomial.X * toP p

/-! ## Sparse term-list model: truncation and the multiplication engine

Modelled from the spec (sections 3, 4.1-4.3): a monomial is an exponent
vector aligned positionally with the series' symbol set, a term is a
(monomial, coefficient) pair, and a series is a collection of terms with
at most one term per monomial and no zero coefficients after
canonicalization. -/

/-- Monomial: exponent vector aligned with the owning series' symbol set. -/
abbrev Mono := List Int

/-- Modelled from the spec: monomial multiplication is exponent-wise
addition (spec 4.1). -/
def monoMul : Mono → Mono → Mono
  | [], q => q
  | p, [] => p
  | a :: p, b :: q => (a + b) :: monoMul p q

/-- Term of a sparse series: monomial and rational coefficient. -/
abbrev STerm := Mono × ℚ

/-- Coefficient of monomial `m` in a term list (terms with equal monomials
contribute by coefficient addition, matching canonical merge-on-insert). -/
def coeffOf (l : List STerm) (m : Mono) : ℚ :=
  (l.filter (fun t => t.1 = m)).foldr (fun t acc => t.2 + acc) 0

/-- Modelled from the spec: insert-with-cancellation into a term container;
if a term with an equal monomial exists the coefficients are added and the
slot erased when the sum is zero, else the term is appended (and a zero
incoming coefficient inserts nothing) (spec 4.2). -/
def insTerm (acc : List STerm) (t : STerm) : List STerm :=
  match acc with
  | [] => if t.2 = 0 then [] else [t]
  | u :: rest =>
    if u.1 = t.1 then
      if u.2 + t.2 = 0 then rest else (u.1, u.2 + t.2) :: rest
    else u :: insTerm rest t

/-- Canonical accumulation of a candidate-term list by repeated insertion. -/
def accumTerms (l : List STerm) : List STerm := l.foldl insTerm []

/-- Modelled from the spec: the candidate space of a product, one candidate
term per pair of input terms, monomials multiplied and coefficients
multiplied (spec 4.3). -/
def candidates (A B : List STerm) : List STerm :=
  A.flatMap (fun ta => B.map (fun tb => (monoMul ta.1 tb.1, ta.2 * tb.2)))

/-- Splits a list into contiguous chunks of size `k`; the fuel argument
bounds the number of chunks and the leftover is emitted whole when it runs
out. -/
def chunksAux : Nat → Nat → List STerm → List (List STerm)
  | _, _, [] => []
  | 0, _, l => [l]
  | f + 1, k, l => l.take k :: chunksAux f k (l.drop k)

/-- Contiguous chunks of size `k` covering the whole list. -/
def chunksOf (k : Nat) (l : List STerm) : List (List STerm) :=
  chunksAux l.length k l

/-- Modelled from the spec: the multiplication engine partitions the
candidate space across `n` workers (contiguous blocks of the first
factor's terms), each worker accumulates its partial product with the
insert-with-cancellation rule, and the partial results are merged by the
same rule (spec 4.3). -/
def threadedMul (n : Nat) (A B : List STerm) : List STerm :=
  let k := (A.length + (n - 1)) / n
  let parts := (chunksOf k A).map (fun ch => accumTerms (candidates ch B))
  accumTerms parts.flatten

/-- Modelled from the doctests of `settings.set_n_threads`
(pyranha/__init__.py): 0 raises a ValueError kind, negative values raise an
OverflowError kind, positive thread counts are accepted. -/
def setNThreads (n : Int) : Except PyExc Unit :=
  if n < 0 then .error .overflowError
  else if n = 0 then .error .valueError
  else .ok ()

/-- Canonical (order-independent) equality test of two term lists: every
monomial mentioned on either side has equal merged coefficients (spec 4.2:
equality of series is equality of their canonicalized term sets). -/
def seriesEqB (a b : List STerm) : Bool :=
  ((a.map Prod.fst) ++ (b.map Prod.fst)).all
    (fun m => decide (coeffOf a m = coeffOf b m))

/-- Sparse series with its symbol table: the symbol names, in order, and the
terms whose exponent vectors are aligned with that order. -/
structure SSeries where
  syms : List String
  terms : List STerm
deriving DecidableEq, Repr

/-- Total degree of an exponent vector: the sum of the exponents
(spec 4.1). -/
def totalDeg (es : Mono) : Int := es.foldr (· + ·) 0

/-- Degree of an exponent vector restricted to the symbols named in `ns`
(spec 4.1: degree optionally restricted to a symbol subset). -/
def namedDeg (syms : List String) (ns : List String) (es : Mono) : Int :=
  ((syms.zip es).filter (fun p => p.1 ∈ ns)).foldr (fun p acc => p.2 + acc) 0

/-- Degree of a term of a series: total degree, or the degree restricted to
the given variable names. -/
def termDeg (syms : List String) (names : Option (List String)) (es : Mono) : Int :=
  match names with
  | none => totalDeg es
  | some ns => namedDeg syms ns es

/-- Modelled from the spec: degree-based truncation eliminates from the
series every term whose (total or partial) degree exceeds the bound
(spec 4.3 truncation and the `truncate_degree` wrapper in
pyranha/math.py). -/
def truncateDegree (s : SSeries) (d : Int) (names : Option (List String)) : SSeries :=
  ⟨s.syms, s.terms.filter (fun t => termDeg s.syms names t.1 ≤ d)⟩

/-! ## Serialization layer

Modelled from the spec (section 4.6) and the save_file/load_file wrappers of
pyranha/__init__.py: a series is converted to a token stream in a chosen
(data format, compression) pair; formats and compressions are deduced from
the filename suffix when not given. The wire format of the C++ backends is
explicitly out of the spec's scope; only the round-trip contract matters. -/

/-- Data formats of pyranha.data_format (pyranha/__init__.py). -/
inductive DataFormat where
  | boost_portable
  | boost_binary
  | msgpack_portable
  | msgpack_binary
deriving DecidableEq, Repr

/-- Compression formats of pyranha.compression (pyranha/__init__.py). -/
inductive Compression where
  | none
  | zlib
  | gzip
  | bzip2
deriving DecidableEq, Repr

/-- Token encoding of a natural number. -/
def encNat (n : Nat) : List Int := [(n : Int)]

/-- Token encoding of a string: length-prefixed character codes. -/
def encStr (s : String) : List Int :=
  (s.data.length : Int) :: s.data.map (fun c => (c.toNat : Int))

/-- Token encoding of an exponent vector: length-prefixed exponents. -/
def encMono (m : Mono) : List Int := (m.length : Int) :: m

/-- Token encoding of a rational coefficient: numerator and denominator. -/
def encCoeff (q : ℚ) : List Int := [q.num, (q.den : Int)]

/-- Token encoding of a term: monomial then coefficient. -/
def encTerm (t : STerm) : List Int := encMono t.1 ++ encCoeff t.2

/-- Token encoding of a list, length-prefixed. -/
def encListOf (enc : α → List Int) (l : List α) : List Int :=
  (l.length : Int) :: (l.map enc).flatten

/-- Token encoding of a series: symbol table then terms (spec 4.6: exact
round trip of terms and symbol table). -/
def encSeries (s : SSeries) : List Int :=
  encListOf encStr s.syms ++ encListOf encTerm s.terms

/-- Token decoder for a counted sequence of elements. -/
def decCount (dec : List Int → Option (α × List Int)) :
    Nat → List Int → Option (List α × List Int)
  | 0, ts => some ([], ts)
  | n + 1, ts => do
    let (x, ts1) ← dec ts
    let (xs, ts2) ← decCount dec n ts1
    some (x :: xs, ts2)

/-- Token decoder for a length-prefixed list. -/
def decListOf (dec : List Int → Option (α × List Int)) :
    List Int → Option (List α × List Int)
  | [] => Option.none
  | n :: ts => decCount dec n.toNat ts

/-- Token decoder for a string. -/
def decStr (ts : List Int) : Option (String × List Int) :=
  match ts with
  | [] => Option.none
  | n :: ts1 =>
    let cs := ts1.take n.toNat
    if (cs.length : Int) = n then
      some (⟨cs.map (fun i => Char.ofNat i.toNat)⟩, ts1.drop n.toNat)
    else Option.none

/-- Token decoder for an exponent vector. -/
def decMono (ts : List Int) : Option (Mono × List Int) :=
  match ts with
  | [] => Option.none
  | n :: ts1 =>
    let es := ts1.take n.toNat
    if (es.length : Int) = n then some (es, ts1.drop n.toNat)
    else Option.none

/-- Token decoder for a rational coefficient. -/
def decCoeff (ts : List Int) : Option (ℚ × List Int) :=
  match ts with
  | num :: den :: ts1 => some (mkRat num den.toNat, ts1)
  | _ => Option.none

/-- Token decoder for a term. -/
def decTerm (ts : List Int) : Option (STerm × List Int) := do
  let (m, ts1) ← decMono ts
  let (c, ts2) ← decCoeff ts1
  some ((m, c), ts2)

/-- Token decoder for a series. -/
def decSeries (ts : List Int) : Option (SSeries × List Int) := do
  let (sy, ts1) ← decListOf decStr ts
  let (tm, ts2) ← decListOf decTerm ts1
  some (⟨sy, tm⟩, ts2)

/-- Format tag written at the head of the stream. -/
def formatTag : DataFormat → Int
  | .boost_portable => 0
  | .boost_binary => 1
  | .msgpack_portable => 2
  | .msgpack_binary => 3

/-- Modelled from the spec: each data format lays the series encoding out in
its own way behind a format tag (the portable layouts stream the tokens in
order, the binary layouts use the reversed native order); the concrete wire
format is out of the spec's scope, only invertibility matters (spec 4.6). -/
def encodeWithFormat (df : DataFormat) (s : SSeries) : List Int :=
  match df with
  | .boost_portable => formatTag df :: encSeries s
  | .boost_binary => formatTag df :: (encSeries s).reverse
  | .msgpack_portable => formatTag df :: encSeries s
  | .msgpack_binary => formatTag df :: (encSeries s).reverse

/-- Decoder for a format-tagged stream: the tag must match the requested
format and the payload must parse completely. -/
def decodeWithFormat (df : DataFormat) (ts : List Int) : Option SSeries :=
  match ts with
  | [] => Option.none
  | tag :: body =>
    if tag = formatTag df then
      let payload :=
        match df with
        | .boost_portable => body
        | .msgpack_portable => body
        | .boost_binary => body.reverse
        | .msgpack_binary => body.reverse
      match decSeries payload with
      | some (s, []) => some s
      | _ => Option.none
    else Option.none

/-- Run-length encoder body: `v` is the current run's value and `c` its
count so far. -/
def rleAux (v : Int) (c : Nat) : List Int → List Int
  | [] => [(c : Int), v]
  | x :: xs => if x = v then rleAux v (c + 1) xs else (c : Int) :: v :: rleAux x 1 xs

/-- Run-length encoding of a token stream (the model's stand-in for the
compression backends; the wire format is out of the spec's scope). -/
def rleEncode : List Int → List Int
  | [] => []
  | x :: xs => rleAux x 1 xs

/-- Run-length decoding. -/
def rleDecode : List Int → List Int
  | c :: v :: rest => List.replicate c.toNat v ++ rleDecode rest
  | _ => []

/-- Compression tag for the compressed variants. -/
def compressionTag : Compression → Int
  | .none => 0
  | .zlib => 10
  | .gzip => 11
  | .bzip2 => 12

/-- Modelled from the spec: compression transforms the format's stream
invertibly; no compression is the identity, the three compressed variants
run-length-encode behind distinct tags (spec 4.6). -/
def compressBytes (cf : Compression) (ts : List Int) : List Int :=
  match cf with
  | .none => ts
  | _ => compressionTag cf :: rleEncode ts

/-- Decompression: the tag must match the requested compression. -/
def decompressBytes (cf : Compression) (ts : List Int) : Option (List Int) :=
  match cf with
  | .none => some ts
  | _ =>
    match ts with
    | [] => Option.none
    | tag :: body =>
      if tag = compressionTag cf then some (rleDecode body) else Option.none

/-- Full byte-stream save: format encoding then compression. -/
def saveBytes (s : SSeries) (df : DataFormat) (cf : Compression) : List Int :=
  compressBytes cf (encodeWithFormat df s)

/-- Full byte-stream load into the (default-constructed) target `obj`: the
target's prior contents are replaced by the decoded stream. -/
def loadBytes (obj : SSeries) (ts : List Int) (df : DataFormat)
    (cf : Compression) : Option SSeries :=
  match decompressBytes cf ts with
  | some body => decodeWithFormat df body
  | Option.none => Option.none

/-- Checks whether `suf` is a suffix of the filename `s`. -/
def hasSuffix (s suf : List Char) : Bool := suf.isSuffixOf s

/-- Removes a suffix of the given length from the end of a filename. -/
def stripSuffix (s suf : List Char) : List Char := s.take (s.length - suf.length)

/-- Compression deduced from the filename suffix (save_file docstring in
pyranha/__init__.py): `.bz2`, `.gz` and `.zip` select bzip2, gzip and zlib
respectively and are stripped; otherwise no compression. -/
def deduceCompression (name : List Char) : List Char × Compression :=
  if hasSuffix name ".bz2".data then (stripSuffix name ".bz2".data, .bzip2)
  else if hasSuffix name ".gz".data then (stripSuffix name ".gz".data, .gzip)
  else if hasSuffix name ".zip".data then (stripSuffix name ".zip".data, .zlib)
  else (name, .none)

/-- Data format deduced from the remaining extension (save_file docstring in
pyranha/__init__.py): `.boostp`, `.boostb`, `.mpackp`, `.mpackb`; anything
else is an error. -/
def deduceFormat (name : List Char) : Option DataFormat :=
  if hasSuffix name ".boostp".data then some .boost_portable
  else if hasSuffix name ".boostb".data then some .boost_binary
  else if hasSuffix name ".mpackp".data then some .msgpack_portable
  else if hasSuffix name ".mpackb".data then some .msgpack_binary
  else Option.none

/-- Deduction of (data format, compression) from the filename: first the
compression suffix, then the data format extension (save_file docstring in
pyranha/__init__.py). -/
def deduceFormats (name : List Char) : Option (DataFormat × Compression) :=
  let (base, cf) := deduceCompression name
  match deduceFormat base with
  | some df => some (df, cf)
  | Option.none => Option.none

/-- Embedded from pyranha/__init__.py `save_file`: with both formats given
they are used directly; with both omitted they are deduced from the
filename (an unknown extension is an error); with exactly one given the
call fails with a ValueError kind (`_save_load_check_params`). -/
def save_file (obj : SSeries) (name : List Char) (df : Option DataFormat)
    (cf : Option Compression) : Except PyExc (List Int) :=
  match df, cf with
  | some d, some c => .ok (saveBytes obj d c)
  | Option.none, Option.none =>
    match deduceFormats name with
    | some (d, c) => .ok (saveBytes obj d c)
    | Option.none => .error .valueError
  | _, _ => .error .valueError

/-- Embedded from pyranha/__init__.py `load_file`: same dispatch as
`save_file`, loading the stream `ts` into `obj`. -/
def load_file (obj : SSeries) (name : List Char) (ts : List Int)
    (df : Option DataFormat) (cf : Option Compression) : Except PyExc SSeries :=
  match df, cf with
  | some d, some c =>
    match loadBytes obj ts d c with
    | some s => .ok s
    | Option.none => .error .typeError
  | Option.none, Option.none =>
    match deduceFormats name with
    | some (d, c) =>
      match loadBytes obj ts d c with
      | some s => .ok s
      | Option.none => .error .typeError
    | Option.none => .error .valueError
  | _, _ => .error .valueError

/-! ## Module import model

Embedded from the Python sources: the top-level names a module defines and
the `from ... import ...` statements executed when a module is initialized.
A from-import of a name the source module does not define raises an
ImportError kind and aborts the importing module's initialization. -/

/-- Top-level names defined by the module pyranha/_common.py (its imports
and function definitions, read off the source file). -/
def commonDefinedNames : List String :=
  ["_ai", "_core", "_get_cf_types", "_get_series_type",
   "_cleanup_custom_derivatives", "_evaluate_wrapper",
   "_register_evaluate_wrapper", "_repr_png_", "_register_repr_png",
   "_register_repr_latex"]

/-- Names requested from pyranha._common by pyranha/__init__.py line 38
(`from ._common import _cpp_type_catcher, _monkey_patching`). -/
def pyranhaInitRequest : List String := ["_cpp_type_catcher", "_monkey_patching"]

/-- Name requested from pyranha._common by pyranha/math.py line 33
(`from ._common import _cpp_type_catcher`). -/
def pyranhaMathRequest : List String := ["_cpp_type_catcher"]

/-- Semantics of a Python from-import: every requested name must be defined
by the source module, else an ImportError kind is raised. -/
def fromImport (defined req : List String) : Except PyExc Unit :=
  if req.all (fun n => defined.contains n) then .ok () else .error .importError

/-- Initialization of the pyranha package up to its from-import of
pyranha._common: the package is importable only if this step succeeds. -/
def pyranhaInitOutcome : Except PyExc Unit :=
  fromImport commonDefinedNames pyranhaInitRequest

/-- Initialization of the pyranha.math module up to its from-import of
pyranha._common. -/
def pyranhaMathOutcome : Except PyExc Unit :=
  fromImport commonDefinedNames pyranhaMathRequest

/-! ## Evaluation-dictionary validation

Embedded from pyranha/math.py `__check_eval_dict` and `evaluate`: the
Python-level checks run before anything is forwarded to the low-level
`_evaluate` routine. -/

/-- Model of the Python values an evaluation dictionary can be built from:
strings, ints, floats, rationals, lists and dictionaries (a dictionary is a
key-value pair list). Floats and mpf values are carried as opaque payloads;
only their type tag matters to the checks. -/
inductive PyVal where
  | pyStr : String → PyVal
  | pyInt : Int → PyVal
  | pyFloat : Nat → PyVal
  | pyFrac : Int → Int → PyVal
  | pyMpf : Nat → PyVal
  | pyList : List PyVal → PyVal
  | pyDict : List (PyVal × PyVal) → PyVal
deriving Repr

/-- Python type tag of a value (the result of `type(...)`). -/
inductive PyTy where
  | tyStr
  | tyInt
  | tyFloat
  | tyFrac
  | tyMpf
  | tyList
  | tyDict
deriving DecidableEq, Repr

/-- Type tag of a value. -/
def tyOf : PyVal → PyTy
  | .pyStr _ => .tyStr
  | .pyInt _ => .tyInt
  | .pyFloat _ => .tyFloat
  | .pyFrac _ _ => .tyFrac
  | .pyMpf _ => .tyMpf
  | .pyList _ => .tyList
  | .pyDict _ => .tyDict

/-- Whether a value is a string (`isinstance(k, str)`). -/
def isPyStr (v : PyVal) : Bool :=
  match v with
  | .pyStr _ => true
  | _ => false

/-- Embedded from pyranha/math.py `__check_eval_dict`: the argument must be
a dict (else TypeError), non-empty (else ValueError), with string keys
(else TypeError) and with all values of one single type (else TypeError). -/
def checkEvalDict (d : PyVal) : Except PyExc Unit :=
  match d with
  | .pyDict entries =>
    if entries.length = 0 then .error .valueError
    else if ¬ (entries.all (fun kv => isPyStr kv.1)) then .error .typeError
    else if ¬ ((entries.map (fun kv => tyOf kv.2)).dedup.length = 1) then
      .error .typeError
    else .ok ()
  | _ => .error .typeError

/-- Embedded from pyranha/math.py `evaluate`: the dictionary is checked
first, and only then is the call forwarded to the low-level routine with
the argument, the dictionary and the value of the first key. -/
def evaluateCall (arg : SSeries) (d : PyVal) :
    Except PyExc (SSeries × PyVal × Option PyVal) :=
  match checkEvalDict d with
  | .error e => .error e
  | .ok () =>
    match d with
    | .pyDict entries => .ok (arg, d, (entries.head?.map Prod.snd))
    | _ => .ok (arg, d, Option.none)

/-! ## Object-identity model for in-place arithmetic

Modelled from the spec (section 6: in-place variants that mutate-in-identity)
and the behaviour exercised by series_in_place_ops_test_case: an object
store maps addresses to series values, and each in-place operation rewrites
the value stored at the target's address and returns the same address. -/

/-- Object store: addresses paired with the series values living there. -/
abbrev Store := List (Nat × Poly)

/-- Value at an address (the zero series for a dangling address). -/
def storeGet (st : Store) (a : Nat) : Poly :=
  match st with
  | [] => []
  | (b, v) :: rest => if b = a then v else storeGet rest a

/-- Store with the value at address `a` replaced by `v`. -/
def storeSet (st : Store) (a : Nat) (v : Poly) : Store :=
  st.map (fun p => if p.1 = a then (a, v) else p)

/-- Modelled from the spec: `x += y` mutates the series at `x`'s address to
the sum and the result is the same object. -/
def iaddOp (st : Store) (a : Nat) (y : Poly) : Store × Nat :=
  (storeSet st a (padd (storeGet st a) y), a)

/-- Modelled from the spec: `x -= y` mutates the series at `x`'s address to
the difference and the result is the same object. -/
def isubOp (st : Store) (a : Nat) (y : Poly) : Store × Nat :=
  (storeSet st a (psub (storeGet st a) y), a)

/-- Modelled from the spec: `x *= y` mutates the series at `x`'s address to
the product and the result is the same object. -/
def imulOp (st : Store) (a : Nat) (y : Poly) : Store × Nat :=
  (storeSet st a (pmul (storeGet st a) y), a)

/-- Modelled from the spec: `x /= y` divides exactly like the binary `/`
(with the same failure kinds) and on success mutates the series at `x`'s
address to the quotient, the result being the same object. -/
def idivOp (st : Store) (a : Nat) (y : Poly) : Except PyExc (Store × Nat) :=
  match pdiv (storeGet st a) y with
  | .ok q => .ok (storeSet st a q, a)
  | .error e => .error e

/-! ## Custom-derivative registry model

Modelled from the spec (design note: custom-derivative registration stores
callables whose captured state is snapshotted at registration) and the
behaviour exercised by custom_derivatives_test_case: registration
deep-copies the functor, so later mutation of the original functor does not
change what `partial` returns. -/

/-- Functor heap: references paired with the mutable captured state of the
custom-derivative functors (the test's functor holds one value and returns
the constant series of that value). -/
abbrev FunctorHeap := List (Nat × Int)

/-- State of a functor reference (0 for a dangling reference). -/
def fhGet (h : FunctorHeap) (r : Nat) : Int :=
  match h with
  | [] => 0
  | (b, v) :: rest => if b = r then v else fhGet rest r

/-- Heap with the state at reference `r` replaced by `v` (the test's
`set_value` mutation of the original functor). -/
def fhSet (h : FunctorHeap) (r : Nat) (v : Int) : FunctorHeap :=
  h.map (fun p => if p.1 = r then (r, v) else p)

/-- A reference not yet used by the heap. -/
def freshRef (h : FunctorHeap) : Nat := (h.map Prod.fst).foldr max 0 + 1

/-- Registry and heap of the custom-derivative machinery of one series
type. -/
structure DerivState where
  heap : FunctorHeap
  registry : List (String × Nat)
deriving DecidableEq, Repr

/-- Modelled from the spec: `register_custom_derivative(name, f)` snapshots
(deep-copies) the functor's captured state into a fresh reference and binds
the name to that copy, leaving the original functor untouched. -/
def registerCustomDerivative (st : DerivState) (name : String) (r : Nat) :
    DerivState :=
  let copy := freshRef st.heap
  ⟨(copy, fhGet st.heap r) :: st.heap, (name, copy) :: st.registry⟩

/-- Mutation of a functor's captured state (the test's `c.set_value(42)`). -/
def setFunctorValue (st : DerivState) (r : Nat) (v : Int) : DerivState :=
  ⟨fhSet st.heap r v, st.registry⟩

/-- Application of the test's functor: it returns the constant series of its
captured value. -/
def applyFunctor (v : Int) : Poly := [(v : ℚ)]

/-- Built-in derivative of the dense univariate model, used when no custom
derivative is registered for the name. -/
def pderivP : Poly → Poly
  | [] => []
  | _ :: q => (List.range q.length).map (fun i => (((i + 1 : ℕ)) : ℚ) * q.getD i 0)

/-- Modelled from the spec: `partial(arg, name)` consults the
custom-derivative registry for `name` first and falls back to the built-in
rule (spec section 6). -/
def partialOf (st : DerivState) (name : String) (p : Poly) : Poly :=
  match st.registry.lookup name with
  | some r => applyFunctor (fhGet st.heap r)
  | Option.none => pderivP p

/-! ## Lemmas: coefficients of the dense model -/

theorem coeffP_nil (n : Nat) : coeffP [] n = 0 := rfl

theorem coeffP_cons_zero (a : ℚ) (p : Poly) : coeffP (a :: p) 0 = a := rfl

theorem coeffP_cons_succ (a : ℚ) (p : Poly) (n : Nat) :
    coeffP (a :: p) (n + 1) = coeffP p n := rfl

theorem coeffP_padd (p q : Poly) (n : Nat) :
    coeffP (padd p q) n = coeffP p n + coeffP q n := by
  induction p generalizing q n with
  | nil => simp [padd, coeffP]
  | cons a p ih =>
    cases q with
    | nil => simp [padd, coeffP]
    | cons b q =>
      cases n with
      | zero => simp [padd, coeffP]
      | succ m => simpa [padd, coeffP_cons_succ] using ih q m

theorem coeffP_pneg (p : Poly) (n : Nat) : coeffP (pneg p) n = -(coeffP p n) := by
  induction p generalizing n with
  | nil => simp [pneg, coeffP]
  | cons a p ih =>
    cases n with
    | zero => simp [pneg, coeffP]
    | succ m => simpa [pneg, coeffP_cons_succ] using ih m

theorem coeffP_psub (p q : Poly) (n : Nat) :
    coeffP (psub p q) n = coeffP p n - coeffP q n := by
  simp [psub, coeffP_padd, coeffP_pneg, sub_eq_add_neg]

theorem coeffP_psmul (c : ℚ) (p : Poly) (n : Nat) :
    coeffP (psmul c p) n = c * coeffP p n := by
  induction p generalizing n with
  | nil => simp [psmul, coeffP]
  | cons a p ih =>
    cases n with
    | zero => simp [psmul, coeffP]
    | succ m => simpa [psmul, coeffP_cons_succ] using ih m

theorem coeffP_pshift (k : Nat) (p : Poly) (n : Nat) :
    coeffP (pshift k p) n = if n < k then 0 else coeffP p (n - k) := by
  induction k generalizing n with
  | zero => simp [pshift, coeffP]
  | succ j ih =>
    cases n with
    | zero => simp [pshift, List.replicate_succ, coeffP]
    | succ m =>
      have h1 : pshift (j + 1) p = 0 :: pshift j p := by
        simp [pshift, List.replicate_succ]
      rw [h1, coeffP_cons_succ, ih m]
      simp [Nat.succ_lt_succ_iff, Nat.succ_sub_succ]

/-! ## Lemmas: canonical size `degP` -/

theorem coeffP_eq_zero_of_degP_le (p : Poly) (n : Nat) (h : degP p ≤ n) :
    coeffP p n = 0 := by
  induction p generalizing n with
  | nil => simp [coeffP]
  | cons a p ih =>
    cases n with
    | zero =>
      rw [coeffP_cons_zero]
      rcases hd : degP p with _ | d
      · by_contra ha
        simp [degP, hd, ha] at h
      · simp [degP, hd] at h
    | succ m =>
      rw [coeffP_cons_succ]
      apply ih
      rcases hd : degP p with _ | d
      · exact Nat.zero_le m
      · simp [degP, hd] at h
        omega

theorem degP_le_of_coeff_zero (p : Poly) (n : Nat)
    (h : ∀ m, n ≤ m → coeffP p m = 0) : degP p ≤ n := by
  induction p generalizing n with
  | nil => simp [degP]
  | cons a p ih =>
    have hp : degP p ≤ n - 1 := by
      apply ih
      intro m hm
      have := h (m + 1) (by omega)
      rwa [coeffP_cons_succ] at this
    cases n with
    | zero =>
      have ha : a = 0 := by simpa [coeffP_cons_zero] using h 0 (le_refl 0)
      have hp0 : degP p = 0 := Nat.le_zero.mp hp
      simp [degP, hp0, ha]
    | succ m =>
      rcases hd : degP p with _ | d
      · simp only [degP, hd]
        split <;> omega
      · simp only [degP, hd]
        rw [hd] at hp
        omega

theorem leadP_ne_zero (p : Poly) (h : degP p ≠ 0) : leadP p ≠ 0 := by
  rw [leadP]
  induction p with
  | nil => simp [degP] at h
  | cons a p ih =>
    rcases hd : degP p with _ | d
    · by_cases ha : a = 0
      · simp [degP, hd, ha] at h
      · simpa [degP, hd, ha, coeffP_cons_zero] using ha
    · have hne : degP p ≠ 0 := by omega
      have := ih hne
      rw [hd] at this
      simpa [degP, hd, coeffP_cons_succ] using this

theorem degP_pneg (p : Poly) : degP (pneg p) = degP p := by
  induction p with
  | nil => rfl
  | cons a p ih =>
    show degP ((-a) :: pneg p) = _
    simp only [degP, ih]
    rcases degP p with _ | d
    · simp [neg_eq_zero]
    · rfl

/-! ## Lemmas: the polynomial semantics `toP` -/

theorem coeff_toP (p : Poly) (n : Nat) : (toP p).coeff n = coeffP p n := by
  induction p generalizing n with
  | nil => simp [toP, coeffP]
  | cons a p ih =>
    cases n with
    | zero =>
      simp [toP, coeffP_cons_zero, Polynomial.coeff_add, Polynomial.coeff_C,
        Polynomial.mul_coeff_zero]
    | succ m =>
      simp [toP, coeffP_cons_succ, Polynomial.coeff_add, Polynomial.coeff_C,
        Polynomial.coeff_X_mul, ih m]

theorem toP_eq_zero_iff (p : Poly) : toP p = 0 ↔ degP p = 0 := by
  constructor
  · intro h
    apply Nat.le_zero.mp
    apply degP_le_of_coeff_zero
    intro m _
    rw [← coeff_toP, h]
    simp
  · intro h
    ext n
    rw [coeff_toP]
    simpa using coeffP_eq_zero_of_degP_le p n (by omega)

theorem toP_padd (p q : Poly) : toP (padd p q) = toP p + toP q := by
  ext n
  simp [coeff_toP, coeffP_padd]

theorem toP_pneg (p : Poly) : toP (pneg p) = -(toP p) := by
  ext n
  simp [coeff_toP, coeffP_pneg]

theorem toP_psub (p q : Poly) : toP (psub p q) = toP p - toP q := by
  ext n
  simp [coeff_toP, coeffP_psub]

theorem toP_psmul (c : ℚ) (p : Poly) : toP (psmul c p) = Polynomial.C c * toP p := by
  ext n
  simp [coeff_toP, coeffP_psmul, Polynomial.coeff_C_mul]

theorem toP_pshift (k : Nat) (p : Poly) :
    toP (pshift k p) = Polynomial.X ^ k * toP p := by
  induction k with
  | zero => simp [pshift]
  | succ j ih =>
    have h1 : pshift (j + 1) p = 0 :: pshift j p := by
      simp [pshift, List.replicate_succ]
    rw [h1]
    show Polynomial.C 0 + Polynomial.X * toP (pshift j p) = _
    rw [ih, Polynomial.C_0]
    ring

theorem toP_pmul (p q : Poly) : toP (pmul p q) = toP p * toP q := by
  induction p with
  | nil => simp [pmul, toP]
  | cons a p ih =>
    show toP (padd (psmul a q) ((0 : ℚ) :: pmul p q)) = _
    rw [toP_padd, toP_psmul]
    show _ + (Polynomial.C 0 + Polynomial.X * toP (pmul p q)) = _
    rw [ih, Polynomial.C_0]
    show _ = (Polynomial.C a + Polynomial.X * toP p) * toP q
    ring

/-! ## Lemmas: long division of the dense model -/

theorem divRemAux_spec (f : Nat) (b : Poly) :
    ∀ r, toP r = toP (divRemAux f r b).1 * toP b + toP (divRemAux f r b).2 := by
  induction f with
  | zero =>
    intro r
    simp [divRemAux, toP]
  | succ f ih =>
    intro r
    rw [divRemAux]
    split
    · simp [toP]
    · have hih := ih (psub r (pshift (degP r - degP b) (psmul (leadP r / leadP b) b)))
      rw [toP_psub, toP_pshift, toP_psmul] at hih
      simp only [toP_padd, toP_pshift]
      have hc : toP [leadP r / leadP b] = Polynomial.C (leadP r / leadP b) := by
        simp [toP]
      rw [hc]
      linear_combination hih

theorem psub_cancel_deg (r b : Poly) (hb : degP b ≠ 0) (hle : degP b ≤ degP r) :
    degP (psub r (pshift (degP r - degP b) (psmul (leadP r / leadP b) b))) < degP r := by
  have hr : degP r ≠ 0 := by omega
  have hlb : leadP b ≠ 0 := leadP_ne_zero b hb
  have key : ∀ m, degP r - 1 ≤ m →
      coeffP (psub r (pshift (degP r - degP b) (psmul (leadP r / leadP b) b))) m = 0 := by
    intro m hm
    rw [coeffP_psub, coeffP_pshift]
    rcases Nat.lt_or_ge m (degP r) with hlt | hge
    · have hm' : m = degP r - 1 := by omega
      subst hm'
      rw [if_neg (by omega : ¬ (degP r - 1 < degP r - degP b)), coeffP_psmul]
      have h2 : degP r - 1 - (degP r - degP b) = degP b - 1 := by omega
      rw [h2]
      have hlr : coeffP r (degP r - 1) = leadP r := rfl
      have hlbv : coeffP b (degP b - 1) = leadP b := rfl
      rw [hlr, hlbv, div_mul_cancel₀ _ hlb]
      ring
    · rw [coeffP_eq_zero_of_degP_le r m hge,
        if_neg (by omega : ¬ (m < degP r - degP b)), coeffP_psmul,
        coeffP_eq_zero_of_degP_le b _ (by omega)]
      ring
  have := degP_le_of_coeff_zero _ _ key
  omega

theorem divRemAux_rem_lt (f : Nat) (b : Poly) (hb : degP b ≠ 0) :
    ∀ r, degP r ≤ f → degP (divRemAux f r b).2 < degP b := by
  induction f with
  | zero =>
    intro r hr
    simp only [divRemAux]
    omega
  | succ f ih =>
    intro r hr
    rw [divRemAux]
    split
    · next h => simpa using h
    · next h =>
      show degP (divRemAux f _ b).2 < degP b
      apply ih
      have := psub_cancel_deg r b hb (by omega)
      omega

theorem pdivRem_spec (a b : Poly) :
    toP a = toP (pdivRem a b).1 * toP b + toP (pdivRem a b).2 :=
  divRemAux_spec (degP a) b a

theorem pdivRem_rem_lt (a b : Poly) (hb : degP b ≠ 0) :
    degP (pdivRem a b).2 < degP b :=
  divRemAux_rem_lt (degP a) b hb a (le_refl _)

theorem degree_toP_lt (p : Poly) : (toP p).degree < ((degP p : ℕ) : WithBot ℕ) := by
  rw [Polynomial.degree_lt_iff_coeff_zero]
  intro m hm
  rw [coeff_toP]
  exact coeffP_eq_zero_of_degP_le p m (by exact_mod_cast hm)

theorem le_degree_toP (p : Poly) (h : degP p ≠ 0) :
    ((degP p - 1 : ℕ) : WithBot ℕ) ≤ (toP p).degree := by
  apply Polynomial.le_degree_of_ne_zero
  rw [coeff_toP]
  exact leadP_ne_zero p h

theorem rem_zero_of_dvd (a b : Poly) (hb : degP b ≠ 0)
    (hdvd : toP b ∣ toP a) : degP (pdivRem a b).2 = 0 := by
  by_contra hR
  have hspec := pdivRem_spec a b
  have hdvdR : toP b ∣ toP (pdivRem a b).2 := by
    have heq : toP (pdivRem a b).2 = toP a - toP (pdivRem a b).1 * toP b := by
      rw [hspec]
      ring
    rw [heq]
    exact dvd_sub hdvd (Dvd.intro_left _ rfl)
  have hlt : (toP (pdivRem a b).2).degree < (toP b).degree := by
    calc (toP (pdivRem a b).2).degree
        < ((degP (pdivRem a b).2 : ℕ) : WithBot ℕ) := degree_toP_lt _
      _ ≤ ((degP b - 1 : ℕ) : WithBot ℕ) := by
          have hrl := pdivRem_rem_lt a b hb
          exact_mod_cast (by omega : degP (pdivRem a b).2 ≤ degP b - 1)
      _ ≤ (toP b).degree := le_degree_toP b hb
  have hz := Polynomial.eq_zero_of_dvd_of_degree_lt hdvdR hlt
  rw [toP_eq_zero_iff] at hz
  exact hR hz

theorem pdiv_sound (a b q : Poly) (h : pdiv a b = .ok q) :
    toP a = toP q * toP b := by
  unfold pdiv at h
  by_cases hb : degP b = 0
  · simp [hb] at h
  · rw [if_neg hb] at h
    by_cases hr : degP (pdivRem a b).2 = 0
    · rw [if_pos hr] at h
      have hq : q = (pdivRem a b).1 := by
        cases h
        rfl
      subst hq
      have hr0 : toP (pdivRem a b).2 = 0 := (toP_eq_zero_iff _).mpr hr
      have := pdivRem_spec a b
      rw [hr0, add_zero] at this
      exact this
    · simp [hr] at h

theorem pdiv_ok_of_dvd (a b : Poly) (hb : degP b ≠ 0) (hdvd : toP b ∣ toP a) :
    pdiv a b = .ok (pdivRem a b).1 := by
  unfold pdiv
  rw [if_neg hb, if_pos (rem_zero_of_dvd a b hb hdvd)]

/-! ## Lemmas: Euclidean GCD of the dense model -/

theorem egcdAux_dvd (f : Nat) :
    ∀ a b, degP b ≤ f →
      toP (egcdAux f a b) ∣ toP a ∧ toP (egcdAux f a b) ∣ toP b := by
  induction f with
  | zero =>
    intro a b hb
    have hb0 : degP b = 0 := Nat.le_zero.mp hb
    simp only [egcdAux]
    exact ⟨dvd_refl _, by rw [(toP_eq_zero_iff b).mpr hb0]; exact dvd_zero _⟩
  | succ f ih =>
    intro a b hb
    rw [egcdAux]
    split
    · next h =>
      exact ⟨dvd_refl _, by rw [(toP_eq_zero_iff b).mpr h]; exact dvd_zero _⟩
    · next h =>
      have hrlt : degP (pdivRem a b).2 < degP b := pdivRem_rem_lt a b h
      have hih := ih b (pdivRem a b).2 (by omega)
      refine ⟨?_, hih.1⟩
      rw [pdivRem_spec a b]
      exact dvd_add (Dvd.dvd.mul_left hih.1 _) hih.2

theorem egcd_dvd (a b : Poly) :
    toP (egcd a b) ∣ toP a ∧ toP (egcd a b) ∣ toP b :=
  egcdAux_dvd (degP b + 1) a b (by omega)

theorem egcdAux_ne_zero (f : Nat) :
    ∀ a b, degP b ≤ f → (degP a ≠ 0 ∨ degP b ≠ 0) →
      degP (egcdAux f a b) ≠ 0 := by
  induction f with
  | zero =>
    intro a b hb hnz
    have hb0 : degP b = 0 := Nat.le_zero.mp hb
    simp only [egcdAux]
    tauto
  | succ f ih =>
    intro a b hb hnz
    rw [egcdAux]
    split
    · next h => tauto
    · next h =>
      exact ih b _ (by have := pdivRem_rem_lt a b h; omega) (Or.inl h)

theorem egcd_ne_zero (a b : Poly) (h : degP a ≠ 0 ∨ degP b ≠ 0) :
    degP (egcd a b) ≠ 0 :=
  egcdAux_ne_zero (degP b + 1) a b (by omega) h

theorem degP_normSign (p : Poly) : degP (normSign p) = degP p := by
  unfold normSign
  split
  · exact degP_pneg p
  · rfl

theorem toP_normSign_cases (p : Poly) :
    toP (normSign p) = toP p ∨ toP (normSign p) = -(toP p) := by
  unfold normSign
  split
  · exact Or.inr (toP_pneg p)
  · exact Or.inl rfl

theorem gcdWithAlgo_eq (algo : GcdAlgo) (a b : Poly) :
    gcdWithAlgo algo a b = egcd a b ∨ gcdWithAlgo algo a b = normSign (egcd a b) := by
  cases algo <;> simp [gcdWithAlgo, heuristicGcd, prsGcd]

theorem toP_gcdWithAlgo_cases (algo : GcdAlgo) (a b : Poly) :
    toP (gcdWithAlgo algo a b) = toP (egcd a b)
    ∨ toP (gcdWithAlgo algo a b) = -(toP (egcd a b)) := by
  rcases gcdWithAlgo_eq algo a b with h | h <;> rw [h]
  · exact Or.inl rfl
  · exact toP_normSign_cases (egcd a b)

theorem gcdWithAlgo_dvd (algo : GcdAlgo) (a b : Poly) :
    toP (gcdWithAlgo algo a b) ∣ toP a ∧ toP (gcdWithAlgo algo a b) ∣ toP b := by
  rcases toP_gcdWithAlgo_cases algo a b with h | h <;> rw [h]
  · exact egcd_dvd a b
  · exact ⟨(neg_dvd).mpr (egcd_dvd a b).1, (neg_dvd).mpr (egcd_dvd a b).2⟩

theorem gcdWithAlgo_ne_zero (algo : GcdAlgo) (a b : Poly)
    (h : degP a ≠ 0 ∨ degP b ≠ 0) : degP (gcdWithAlgo algo a b) ≠ 0 := by
  rcases gcdWithAlgo_eq algo a b with heq | heq <;> rw [heq]
  · exact egcd_ne_zero a b h
  · rw [degP_normSign]
    exact egcd_ne_zero a b h

/-! ## Claims about division and GCD -/

/-- C3: for every pair of series a, b of the same type, the division a / b
raises a ZeroDivisionError-kind error when b is the additive identity,
raises an ArithmeticError-kind error when b is nonzero but no exact
quotient exists, and otherwise returns the exact quotient. -/
theorem series_division_trichotomy (a b : Poly) :
    (toP b = 0 → pdiv a b = .error .zeroDivisionError)
    ∧ (toP b ≠ 0 → (¬ ∃ q : Poly, toP q * toP b = toP a) →
        pdiv a b = .error .arithmeticError)
    ∧ (toP b ≠ 0 → (∃ q : Poly, toP q * toP b = toP a) →
        ∃ q : Poly, pdiv a b = .ok q ∧ toP q * toP b = toP a) := by
  refine ⟨?_, ?_, ?_⟩
  · intro hb
    rw [toP_eq_zero_iff] at hb
    unfold pdiv
    rw [if_pos hb]
  · intro hb hq
    rw [Ne, toP_eq_zero_iff] at hb
    have hr : ¬ degP (pdivRem a b).2 = 0 := by
      intro hr0
      apply hq
      refine ⟨(pdivRem a b).1, ?_⟩
      have hspec := pdivRem_spec a b
      rw [(toP_eq_zero_iff _).mpr hr0, add_zero] at hspec
      exact hspec.symm
    unfold pdiv
    rw [if_neg hb, if_neg hr]
  · rintro hb ⟨q0, hq0⟩
    rw [Ne, toP_eq_zero_iff] at hb
    have hdvd : toP b ∣ toP a := ⟨toP q0, by rw [← hq0]; ring⟩
    refine ⟨(pdivRem a b).1, pdiv_ok_of_dvd a b hb hdvd, ?_⟩
    exact (pdiv_sound a b _ (pdiv_ok_of_dvd a b hb hdvd)).symm

/-- C3 witness: the zero divisor raises the ZeroDivisionError kind
(x / 0), the inexact division x / (x + 1) raises the ArithmeticError kind,
and the exact division (x^2 - 1) / (x + 1) returns the exact quotient. -/
theorem series_division_trichotomy_witness :
    pdiv [(1 : ℚ)] [] = .error .zeroDivisionError
    ∧ pdiv [(0 : ℚ), 1] [(1 : ℚ), 1] = .error .arithmeticError
    ∧ ∃ q : Poly, pdiv [(-1 : ℚ), 0, 1] [(1 : ℚ), 1] = .ok q
        ∧ toP q * toP [(1 : ℚ), 1] = toP [(-1 : ℚ), 0, 1] := by
  have hb1 : toP [(1 : ℚ), 1] ≠ 0 := by
    rw [Ne, toP_eq_zero_iff]
    norm_num [degP]
  refine ⟨(series_division_trichotomy [(1 : ℚ)] []).1 rfl, ?_, ?_⟩
  · refine (series_division_trichotomy [(0 : ℚ), 1] [(1 : ℚ), 1]).2.1 hb1 ?_
    rintro ⟨q, hq⟩
    have hev := congrArg (Polynomial.eval (-1)) hq
    simp [toP] at hev
  · refine (series_division_trichotomy [(-1 : ℚ), 0, 1] [(1 : ℚ), 1]).2.2 hb1 ?_
    refine ⟨[(-1 : ℚ), 1], ?_⟩
    simp [toP]
    ring

/-- C4: for all series a and b, if the exact division q = a / b succeeds,
then q * b == a. -/
theorem division_inverse (a b q : Poly) (h : pdiv a b = .ok q) :
    toP (pmul q b) = toP a := by
  rw [toP_pmul]
  exact (pdiv_sound a b q h).symm

/-- C4 witness: (x^2 - 1) / (x + 1) = x - 1 and (x - 1) * (x + 1) equals
x^2 - 1. -/
theorem division_inverse_witness :
    toP (pmul [(-1 : ℚ), 1] [(1 : ℚ), 1]) = toP [(-1 : ℚ), 0, 1] :=
  division_inverse _ _ _ (by
    norm_num [pdiv, pdivRem, divRemAux, degP, leadP, coeffP, psub, padd,
      pneg, psmul, pshift, List.replicate])

/-- C5 (amended): for polynomials a, b over the same ring with non-negative
exponents that are not both zero, g = gcd(a, b) divides both inputs exactly
under every selectable algorithm, the result is determined only up to sign,
inputs with negative exponents fail with a ValueError kind and mixed-ring
inputs with a TypeError kind. -/
theorem polynomial_gcd_spec (algo : GcdAlgo) (x y : PolySeries) :
    (x.rid ≠ y.rid → seriesGcd algo x y = .error .typeError)
    ∧ (x.rid = y.rid → (x.low < 0 ∨ y.low < 0) →
        seriesGcd algo x y = .error .valueError)
    ∧ (∀ g : PolySeries, seriesGcd algo x y = .ok g →
        ((degP (seriesRepr x) ≠ 0 ∨ degP (seriesRepr y) ≠ 0) →
          (∃ qx, pdiv (seriesRepr x) g.cfs = .ok qx)
          ∧ ∃ qy, pdiv (seriesRepr y) g.cfs = .ok qy)
        ∧ ∀ (algo2 : GcdAlgo) (g2 : PolySeries), seriesGcd algo2 x y = .ok g2 →
            toP g2.cfs = toP g.cfs ∨ toP g2.cfs = -(toP g.cfs)) := by
  refine ⟨?_, ?_, ?_⟩
  · intro hr
    unfold seriesGcd
    rw [if_pos hr]
  · intro hr hlow
    unfold seriesGcd
    rw [if_neg (by simp [hr]), if_pos hlow]
  · intro g hg
    have hcase : ¬ x.rid ≠ y.rid ∧ ¬ (x.low < 0 ∨ y.low < 0) ∧
        g = ⟨x.rid, 0, gcdWithAlgo algo (seriesRepr x) (seriesRepr y)⟩ := by
      unfold seriesGcd at hg
      by_cases h1 : x.rid ≠ y.rid
      · rw [if_pos h1] at hg
        cases hg
      · rw [if_neg h1] at hg
        by_cases h2 : x.low < 0 ∨ y.low < 0
        · rw [if_pos h2] at hg
          cases hg
        · rw [if_neg h2] at hg
          cases hg
          exact ⟨h1, h2, rfl⟩
    obtain ⟨h1, h2, hgeq⟩ := hcase
    constructor
    · intro hnz
      have hcfs : g.cfs = gcdWithAlgo algo (seriesRepr x) (seriesRepr y) := by
        rw [hgeq]
      have hdvd := gcdWithAlgo_dvd algo (seriesRepr x) (seriesRepr y)
      have hgnz := gcdWithAlgo_ne_zero algo (seriesRepr x) (seriesRepr y) hnz
      rw [hcfs]
      exact ⟨⟨_, pdiv_ok_of_dvd _ _ hgnz hdvd.1⟩, ⟨_, pdiv_ok_of_dvd _ _ hgnz hdvd.2⟩⟩
    · intro algo2 g2 hg2
      have hcase2 : g2 = ⟨x.rid, 0, gcdWithAlgo algo2 (seriesRepr x) (seriesRepr y)⟩ := by
        unfold seriesGcd at hg2
        rw [if_neg h1, if_neg h2] at hg2
        cases hg2
        rfl
      have e1 := toP_gcdWithAlgo_cases algo (seriesRepr x) (seriesRepr y)
      have e2 := toP_gcdWithAlgo_cases algo2 (seriesRepr x) (seriesRepr y)
      rw [hgeq]
      rw [hcase2]
      show toP (gcdWithAlgo algo2 _ _) = toP (gcdWithAlgo algo _ _)
        ∨ toP (gcdWithAlgo algo2 _ _) = -(toP (gcdWithAlgo algo _ _))
      rcases e1 with h3 | h3 <;> rcases e2 with h4 | h4 <;> rw [h3, h4]
      · exact Or.inl rfl
      · exact Or.inr rfl
      · exact Or.inr (by rw [neg_neg])
      · exact Or.inl rfl

/-- C5 counterexample: for the pair of zero series (same ring, non-negative
exponents), every algorithm returns the zero series as GCD, and dividing
the input by that GCD does not succeed: it raises a ZeroDivisionError kind,
so the claim's "a / g and b / g succeed" fails as stated. -/
theorem polynomial_gcd_zero_zero :
    seriesGcd .automatic ⟨0, 0, []⟩ ⟨0, 0, []⟩ = .ok ⟨0, 0, []⟩
    ∧ pdiv (seriesRepr ⟨0, 0, []⟩) (PolySeries.cfs ⟨0, 0, []⟩) =
        .error .zeroDivisionError := by
  constructor
  · norm_num [seriesGcd, gcdWithAlgo, heuristicGcd, egcd, egcdAux, degP,
      normSign, leadP, coeffP, seriesRepr, pshift]
  · norm_num [pdiv, degP, seriesRepr, pshift]

/-- C5 witness: for a = x^2 - 1 and b = x + 1 (same ring, non-negative
exponents, not both zero) the automatic algorithm returns g = x + 1 and
both exact divisions succeed. -/
theorem polynomial_gcd_spec_witness :
    (∃ qx, pdiv (seriesRepr ⟨0, 0, [(-1 : ℚ), 0, 1]⟩)
        (PolySeries.cfs ⟨0, 0, [(1 : ℚ), 1]⟩) = .ok qx)
    ∧ ∃ qy, pdiv (seriesRepr ⟨0, 0, [(1 : ℚ), 1]⟩)
        (PolySeries.cfs ⟨0, 0, [(1 : ℚ), 1]⟩) = .ok qy := by
  have h := ((polynomial_gcd_spec .automatic ⟨0, 0, [(-1 : ℚ), 0, 1]⟩
      ⟨0, 0, [(1 : ℚ), 1]⟩).2.2 ⟨0, 0, [(1 : ℚ), 1]⟩ (by
        norm_num [seriesGcd, gcdWithAlgo, heuristicGcd, egcd, egcdAux,
          pdivRem, divRemAux, degP, normSign, leadP, coeffP, seriesRepr,
          pshift, psub, padd, pneg, psmul, List.replicate])).1 (by
        norm_num [seriesRepr, pshift, degP, List.replicate])
  exact h

/-! ## Lemmas: sparse term lists, truncation, threaded multiplication -/

theorem coeffOf_nil (m : Mono) : coeffOf [] m = 0 := rfl

theorem coeffOf_cons (t : STerm) (l : List STerm) (m : Mono) :
    coeffOf (t :: l) m = (if t.1 = m then t.2 else 0) + coeffOf l m := by
  by_cases h : t.1 = m <;> simp [coeffOf, List.filter_cons, h]

theorem coeffOf_append (l1 l2 : List STerm) (m : Mono) :
    coeffOf (l1 ++ l2) m = coeffOf l1 m + coeffOf l2 m := by
  induction l1 with
  | nil => simp [coeffOf_nil]
  | cons t l ih => simp [coeffOf_cons, ih, add_assoc]

theorem coeffOf_insTerm (acc : List STerm) (t : STerm) (m : Mono) :
    coeffOf (insTerm acc t) m = coeffOf acc m + (if t.1 = m then t.2 else 0) := by
  induction acc with
  | nil =>
    by_cases hz : t.2 = 0
    · simp [insTerm, hz, coeffOf_nil]
    · simp [insTerm, hz, coeffOf_cons, coeffOf_nil, add_comm]
  | cons u rest ih =>
    by_cases hu : u.1 = t.1
    · by_cases hz : u.2 + t.2 = 0
      · simp only [insTerm, if_pos hu, if_pos hz]
        rw [coeffOf_cons]
        by_cases hm : t.1 = m
        · rw [if_pos hm, if_pos (hu.trans hm)]
          have : u.2 = -t.2 := by linarith
          rw [this]
          ring
        · rw [if_neg hm, if_neg (fun h => hm (hu ▸ h))]
          ring
      · simp only [insTerm, if_pos hu, if_neg hz]
        rw [coeffOf_cons, coeffOf_cons]
        by_cases hm : t.1 = m
        · rw [if_pos (hu.trans hm), if_pos hm, if_pos (hu.trans hm)]
          ring
        · rw [if_neg (fun h => hm (hu ▸ h)), if_neg hm,
            if_neg (fun h => hm (hu ▸ h))]
          ring
    · simp only [insTerm, if_neg hu]
      rw [coeffOf_cons, coeffOf_cons, ih]
      ring

theorem coeffOf_foldl_insTerm (m : Mono) :
    ∀ (l : List STerm) (acc : List STerm),
      coeffOf (l.foldl insTerm acc) m = coeffOf acc m + coeffOf l m := by
  intro l
  induction l with
  | nil => intro acc; simp [coeffOf_nil]
  | cons t l ih =>
    intro acc
    rw [List.foldl_cons, ih, coeffOf_insTerm, coeffOf_cons]
    ring

theorem coeffOf_accumTerms (l : List STerm) (m : Mono) :
    coeffOf (accumTerms l) m = coeffOf l m := by
  rw [accumTerms, coeffOf_foldl_insTerm]
  simp [coeffOf_nil]

theorem chunksAux_flatten (k : Nat) :
    ∀ (f : Nat) (l : List STerm), (chunksAux f k l).flatten = l := by
  intro f
  induction f with
  | zero =>
    intro l
    cases l <;> simp [chunksAux]
  | succ f ih =>
    intro l
    cases l with
    | nil => simp [chunksAux]
    | cons a l =>
      show ((a :: l).take k :: chunksAux f k ((a :: l).drop k)).flatten = a :: l
      simp only [List.flatten_cons, ih]
      exact List.take_append_drop k (a :: l)

theorem chunksOf_flatten (k : Nat) (l : List STerm) :
    (chunksOf k l).flatten = l := chunksAux_flatten k l.length l

theorem candidates_append (l1 l2 B : List STerm) :
    candidates (l1 ++ l2) B = candidates l1 B ++ candidates l2 B := by
  simp [candidates]

theorem coeffOf_parts (B : List STerm) (m : Mono) :
    ∀ (ls : List (List STerm)),
      coeffOf ((ls.map (fun ch => accumTerms (candidates ch B))).flatten) m
        = coeffOf (candidates ls.flatten B) m := by
  intro ls
  induction ls with
  | nil => rfl
  | cons ch ls ih =>
    simp only [List.map_cons, List.flatten_cons]
    rw [coeffOf_append, coeffOf_accumTerms, ih]
    rw [candidates_append, coeffOf_append]

theorem coeffOf_threadedMul (n : Nat) (A B : List STerm) (m : Mono) :
    coeffOf (threadedMul n A B) m = coeffOf (candidates A B) m := by
  unfold threadedMul
  rw [coeffOf_accumTerms, coeffOf_parts, chunksOf_flatten]

theorem coeffOf_eq_zero_of_not_mem (l : List STerm) (m : Mono)
    (h : m ∉ l.map Prod.fst) : coeffOf l m = 0 := by
  induction l with
  | nil => rfl
  | cons t l ih =>
    rw [coeffOf_cons]
    simp only [List.map_cons, List.mem_cons] at h
    push_neg at h
    rw [if_neg (fun he => h.1 he.symm), ih h.2]
    ring

theorem seriesEqB_of_coeff (a b : List STerm)
    (h : ∀ m, coeffOf a m = coeffOf b m) : seriesEqB a b = true := by
  rw [seriesEqB, List.all_eq_true]
  intro m _
  exact decide_eq_true (h m)

/-! ## Claims about truncation and threaded multiplication -/

/-- C7: for every series s, every degree bound d, and every optional list of
variable names, degree-based truncation is idempotent:
truncate_degree(truncate_degree(s, d), d) == truncate_degree(s, d). -/
theorem truncate_degree_idempotent (s : SSeries) (d : Int)
    (names : Option (List String)) :
    truncateDegree (truncateDegree s d names) d names = truncateDegree s d names := by
  unfold truncateDegree
  simp [List.filter_filter]

/-- C8: for every pair of series of the same type and every thread count
accepted by settings.set_n_threads, the product computed with that thread
count equals the product computed with one thread. -/
theorem multiplication_thread_invariance (A B : List STerm) (n : Int)
    (h : setNThreads n = .ok ()) :
    seriesEqB (threadedMul n.toNat A B) (threadedMul 1 A B) = true := by
  apply seriesEqB_of_coeff
  intro m
  rw [coeffOf_threadedMul, coeffOf_threadedMul]

/-- C8 witness: the products of (x + y) and (x - y) under 4 threads and
under 1 thread coincide. -/
theorem multiplication_thread_invariance_witness :
    seriesEqB
      (threadedMul (Int.toNat 4) [([1, 0], (1 : ℚ)), ([0, 1], 1)]
        [([1, 0], 1), ([0, 1], -1)])
      (threadedMul 1 [([1, 0], (1 : ℚ)), ([0, 1], 1)]
        [([1, 0], 1), ([0, 1], -1)]) = true :=
  multiplication_thread_invariance _ _ 4 rfl

/-! ## Lemmas: serialization round trip -/

theorem decStr_enc (s : String) (rest : List Int) :
    decStr (encStr s ++ rest) = some (s, rest) := by
  unfold encStr decStr
  simp only [List.cons_append]
  have hlen : ((s.data.map (fun c => (c.toNat : Int))) ++ rest).take
      ((s.data.length : Int)).toNat = s.data.map (fun c => (c.toNat : Int)) := by
    rw [Int.toNat_natCast]
    exact List.take_left' (by simp)
  have hdrop : ((s.data.map (fun c => (c.toNat : Int))) ++ rest).drop
      ((s.data.length : Int)).toNat = rest := by
    rw [Int.toNat_natCast]
    exact List.drop_left' (by simp)
  rw [hlen, hdrop]
  rw [if_pos (by simp)]
  have hmap : ∀ c : Char, Char.ofNat ((c.toNat : Int)).toNat = c := by
    intro c
    rw [Int.toNat_natCast, Char.ofNat_toNat]
  simp only [List.map_map]
  have hid : List.map ((fun i => Char.ofNat i.toNat) ∘ fun c => ((c.toNat : Int)))
      s.data = List.map id s.data :=
    List.map_congr_left (fun c _ => by
      show Char.ofNat ((c.toNat : Int)).toNat = c
      exact hmap c)
  rw [hid, List.map_id]

theorem decMono_enc (m : Mono) (rest : List Int) :
    decMono (encMono m ++ rest) = some (m, rest) := by
  unfold encMono decMono
  simp only [List.cons_append]
  rw [show ((m ++ rest).take ((m.length : Int)).toNat) = m by
    rw [Int.toNat_natCast]; exact List.take_left' rfl]
  rw [show ((m ++ rest).drop ((m.length : Int)).toNat) = rest by
    rw [Int.toNat_natCast]; exact List.drop_left' rfl]
  rw [if_pos rfl]

theorem decCoeff_enc (q : ℚ) (rest : List Int) :
    decCoeff (encCoeff q ++ rest) = some (q, rest) := by
  unfold encCoeff decCoeff
  simp [Int.toNat_natCast, Rat.mkRat_self]

theorem decTerm_enc (t : STerm) (rest : List Int) :
    decTerm (encTerm t ++ rest) = some (t, rest) := by
  unfold encTerm decTerm
  rw [List.append_assoc, decMono_enc]
  show (do
    let (c, ts2) ← decCoeff (encCoeff t.2 ++ rest)
    some ((t.1, c), ts2)) = some (t, rest)
  rw [decCoeff_enc]
  rfl

theorem decCount_enc {α : Type} (enc : α → List Int)
    (dec : List Int → Option (α × List Int))
    (hdec : ∀ x rest, dec (enc x ++ rest) = some (x, rest)) :
    ∀ (l : List α) (rest : List Int),
      decCount dec l.length ((l.map enc).flatten ++ rest) = some (l, rest) := by
  intro l
  induction l with
  | nil => intro rest; simp [decCount]
  | cons x l ih =>
    intro rest
    show decCount dec (l.length + 1)
      ((enc x ++ (l.map enc).flatten) ++ rest) = some (x :: l, rest)
    rw [decCount, List.append_assoc, hdec]
    show (do
      let (xs, ts2) ← decCount dec l.length ((l.map enc).flatten ++ rest)
      some (x :: xs, ts2)) = some (x :: l, rest)
    rw [ih rest]
    rfl

theorem decListOf_enc {α : Type} (enc : α → List Int)
    (dec : List Int → Option (α × List Int))
    (hdec : ∀ x rest, dec (enc x ++ rest) = some (x, rest))
    (l : List α) (rest : List Int) :
    decListOf dec (encListOf enc l ++ rest) = some (l, rest) := by
  unfold encListOf decListOf
  simp only [List.cons_append]
  rw [Int.toNat_natCast]
  exact decCount_enc enc dec hdec l rest

theorem decSeries_enc (s : SSeries) (rest : List Int) :
    decSeries (encSeries s ++ rest) = some (s, rest) := by
  unfold encSeries decSeries
  rw [List.append_assoc, decListOf_enc encStr decStr decStr_enc]
  show (do
    let (tm, ts2) ← decListOf decTerm (encListOf encTerm s.terms ++ rest)
    some (⟨s.syms, tm⟩, ts2)) = some (s, rest)
  rw [decListOf_enc encTerm decTerm decTerm_enc]
  rfl

theorem decodeWithFormat_enc (df : DataFormat) (s : SSeries) :
    decodeWithFormat df (encodeWithFormat df s) = some s := by
  have hdec : decSeries (encSeries s) = some (s, []) := by
    have := decSeries_enc s []
    rwa [List.append_nil] at this
  cases df <;>
    simp [encodeWithFormat, decodeWithFormat, formatTag, List.reverse_reverse, hdec]

theorem rleDecode_rleAux (xs : List Int) :
    ∀ (v : Int) (c : Nat), rleDecode (rleAux v c xs) = List.replicate c v ++ xs := by
  induction xs with
  | nil =>
    intro v c
    simp [rleAux, rleDecode, Int.toNat_natCast]
  | cons x xs ih =>
    intro v c
    by_cases h : x = v
    · subst h
      rw [rleAux, if_pos rfl, ih, List.replicate_succ', List.append_assoc]
      simp
    · rw [rleAux, if_neg h, rleDecode, ih, Int.toNat_natCast]
      simp [List.replicate]

theorem rleDecode_rleEncode (l : List Int) : rleDecode (rleEncode l) = l := by
  cases l with
  | nil => rfl
  | cons x xs =>
    rw [rleEncode, rleDecode_rleAux]
    simp [List.replicate]

theorem decompress_compress (cf : Compression) (ts : List Int) :
    decompressBytes cf (compressBytes cf ts) = some ts := by
  cases cf <;>
    simp [compressBytes, decompressBytes, compressionTag, rleDecode_rleEncode]

theorem loadBytes_saveBytes (obj s : SSeries) (df : DataFormat)
    (cf : Compression) : loadBytes obj (saveBytes s df cf) df cf = some s := by
  unfold saveBytes loadBytes
  rw [decompress_compress]
  exact decodeWithFormat_enc df s

/-! ## Claim about the serialization round trip -/

/-- C1: for every series s and every supported (data format, compression)
pair, saving s with save_file and then loading into a default-constructed
series of the same type with load_file yields a series equal to s; the same
round-trip equality holds when both format and compression are deduced from
the filename suffix. -/
theorem save_file_load_file_roundtrip (s obj : SSeries) (df : DataFormat)
    (cf : Compression) (name : List Char) (dfc : DataFormat × Compression)
    (hded : deduceFormats name = some dfc) :
    (∀ bs, save_file s name (some df) (some cf) = .ok bs →
        load_file obj name bs (some df) (some cf) = .ok s)
    ∧ (∀ bs, save_file s name Option.none Option.none = .ok bs →
        load_file obj name bs Option.none Option.none = .ok s) := by
  constructor
  · intro bs hsave
    have hbs : bs = saveBytes s df cf := by
      unfold save_file at hsave
      cases hsave
      rfl
    subst hbs
    simp only [load_file, loadBytes_saveBytes]
  · intro bs hsave
    unfold save_file at hsave
    rw [hded] at hsave
    have hbs : bs = saveBytes s dfc.1 dfc.2 := by
      cases hsave
      rfl
    subst hbs
    simp only [load_file, hded, loadBytes_saveBytes]

/-- C1 witness: a concrete round trip of the series 1 + x*y through the
explicitly given (msgpack_binary, gzip) pair, and through the formats
(boost_binary, bzip2) deduced from the filename "foo.boostb.bz2". -/
theorem save_file_load_file_roundtrip_witness :
    (∀ bs, save_file ⟨["x", "y"], [([0, 0], 1), ([1, 1], 1)]⟩
          "foo.boostb.bz2".data (some .msgpack_binary) (some .gzip) = .ok bs →
        load_file ⟨[], []⟩ "foo.boostb.bz2".data bs
          (some .msgpack_binary) (some .gzip) =
          .ok ⟨["x", "y"], [([0, 0], 1), ([1, 1], 1)]⟩)
    ∧ (∀ bs, save_file ⟨["x", "y"], [([0, 0], 1), ([1, 1], 1)]⟩
          "foo.boostb.bz2".data Option.none Option.none = .ok bs →
        load_file ⟨[], []⟩ "foo.boostb.bz2".data bs
          Option.none Option.none =
          .ok ⟨["x", "y"], [([0, 0], 1), ([1, 1], 1)]⟩) :=
  save_file_load_file_roundtrip _ _ .msgpack_binary .gzip _
    (DataFormat.boost_binary, Compression.bzip2) (by
      simp [deduceFormats, deduceCompression, deduceFormat, hasSuffix,
        stripSuffix, List.isSuffixOf])

/-! ## Claim about the broken package imports -/

/-- C2: importing the pyranha package (or the pyranha.math module) fails
with an ImportError-kind error, so no public operation of the Python layer
is reachable: pyranha/__init__.py imports the names _cpp_type_catcher and
_monkey_patching from pyranha._common, and pyranha/math.py imports
_cpp_type_catcher from it, but the module pyranha/_common.py defines
neither name. -/
theorem pyranha_import_fails :
    "_cpp_type_catcher" ∉ commonDefinedNames
    ∧ "_monkey_patching" ∉ commonDefinedNames
    ∧ pyranhaInitOutcome = .error .importError
    ∧ pyranhaMathOutcome = .error .importError := by
  refine ⟨by decide, by decide, rfl, rfl⟩

/-! ## Claim about the evaluation-dictionary checks -/

/-- C6: for every symbolic argument, evaluate(arg, d) raises a
TypeError-kind error when d is not a dict, when any key of d is not a
string, or when the values of d are not all of one single type; it raises a
ValueError-kind error when d is an empty dict; only a dictionary passing
all these checks is forwarded to the low-level evaluation routine. -/
theorem evaluate_checks_dict (arg : SSeries) (d : PyVal) :
    ((∀ entries, d ≠ .pyDict entries) → evaluateCall arg d = .error .typeError)
    ∧ (d = .pyDict [] → evaluateCall arg d = .error .valueError)
    ∧ (∀ entries, d = .pyDict entries → entries ≠ [] →
        ¬ (entries.all (fun kv => isPyStr kv.1)) = true →
        evaluateCall arg d = .error .typeError)
    ∧ (∀ entries, d = .pyDict entries → entries ≠ [] →
        (entries.all (fun kv => isPyStr kv.1)) = true →
        (entries.map (fun kv => tyOf kv.2)).dedup.length ≠ 1 →
        evaluateCall arg d = .error .typeError)
    ∧ (∀ r, evaluateCall arg d = .ok r →
        checkEvalDict d = .ok ()
        ∧ ∃ entries, d = .pyDict entries
            ∧ r = (arg, d, entries.head?.map Prod.snd)) := by
  refine ⟨?_, ?_, ?_, ?_, ?_⟩
  · intro hnd
    cases d with
    | pyDict entries => exact absurd rfl (hnd entries)
    | pyStr v => rfl
    | pyInt v => rfl
    | pyFloat v => rfl
    | pyFrac v w => rfl
    | pyMpf v => rfl
    | pyList v => rfl
  · intro hd
    subst hd
    rfl
  · intro entries hd hne hkeys
    subst hd
    have hc : checkEvalDict (.pyDict entries) = .error .typeError := by
      simp only [checkEvalDict]
      rw [if_neg (by simpa using hne), if_pos hkeys]
    simp only [evaluateCall, hc]
  · intro entries hd hne hkeys hty
    subst hd
    have hc : checkEvalDict (.pyDict entries) = .error .typeError := by
      simp only [checkEvalDict]
      rw [if_neg (by simpa using hne), if_neg (by simpa using hkeys),
        if_pos (by simpa using hty)]
    simp only [evaluateCall, hc]
  · intro r hr
    cases d with
    | pyDict entries =>
      cases hc : checkEvalDict (.pyDict entries) with
      | error e =>
        simp only [evaluateCall, hc] at hr
        exact Except.noConfusion hr
      | ok u =>
        cases u
        simp only [evaluateCall, hc] at hr
        cases hr
        exact ⟨rfl, entries, rfl, rfl⟩
    | pyStr v =>
      simp only [evaluateCall, checkEvalDict] at hr
      exact Except.noConfusion hr
    | pyInt v =>
      simp only [evaluateCall, checkEvalDict] at hr
      exact Except.noConfusion hr
    | pyFloat v =>
      simp only [evaluateCall, checkEvalDict] at hr
      exact Except.noConfusion hr
    | pyFrac v w =>
      simp only [evaluateCall, checkEvalDict] at hr
      exact Except.noConfusion hr
    | pyMpf v =>
      simp only [evaluateCall, checkEvalDict] at hr
      exact Except.noConfusion hr
    | pyList v =>
      simp only [evaluateCall, checkEvalDict] at hr
      exact Except.noConfusion hr

/-- C6 witness: a list argument raises the TypeError kind, the empty dict
raises the ValueError kind, and a well-formed one-entry dict is forwarded
with its first value. -/
theorem evaluate_checks_dict_witness :
    evaluateCall ⟨[], []⟩ (.pyList []) = .error .typeError
    ∧ evaluateCall ⟨[], []⟩ (.pyDict []) = .error .valueError
    ∧ (checkEvalDict (.pyDict [(.pyStr "x", .pyInt 2)]) = .ok ()
        ∧ ∃ entries, (PyVal.pyDict [(.pyStr "x", .pyInt 2)]) = .pyDict entries
            ∧ ((⟨[], []⟩ : SSeries), PyVal.pyDict [(.pyStr "x", .pyInt 2)],
                some (PyVal.pyInt 2)) =
              (⟨[], []⟩, .pyDict [(.pyStr "x", .pyInt 2)],
                entries.head?.map Prod.snd)) := by
  refine ⟨(evaluate_checks_dict ⟨[], []⟩ (.pyList [])).1
      (fun entries h => PyVal.noConfusion h),
    (evaluate_checks_dict ⟨[], []⟩ (.pyDict [])).2.1 rfl,
    (evaluate_checks_dict ⟨[], []⟩ (.pyDict [(.pyStr "x", .pyInt 2)])).2.2.2.2
      _ rfl⟩

/-! ## Lemmas and claim: in-place operations mutate in identity -/

theorem storeGet_storeSet_mem (st : Store) (a : Nat) (v : Poly)
    (h : a ∈ st.map Prod.fst) : storeGet (storeSet st a v) a = v := by
  induction st with
  | nil => simp at h
  | cons p rest ih =>
    obtain ⟨b, w⟩ := p
    by_cases hp : b = a
    · subst hp
      show storeGet
        ((if (b, w).1 = b then (b, v) else (b, w)) :: storeSet rest b v) b = v
      rw [if_pos rfl, storeGet, if_pos rfl]
    · simp only [List.map_cons, List.mem_cons] at h
      rcases h with h | h
      · exact absurd h.symm hp
      · simp only [storeSet, List.map_cons]
        rw [if_neg hp, storeGet, if_neg hp]
        exact ih h

/-- C9: for every series x and every compatible operand y, the in-place
operations x += y, x -= y, x *= y and x /= y mutate x in place: after the
operation, x is the same object identity as before and its value equals the
result of the corresponding binary operation. -/
theorem inplace_ops_mutate_in_identity (st : Store) (a : Nat) (y : Poly)
    (hmem : a ∈ st.map Prod.fst) :
    ((iaddOp st a y).2 = a
      ∧ storeGet (iaddOp st a y).1 a = padd (storeGet st a) y)
    ∧ ((isubOp st a y).2 = a
      ∧ storeGet (isubOp st a y).1 a = psub (storeGet st a) y)
    ∧ ((imulOp st a y).2 = a
      ∧ storeGet (imulOp st a y).1 a = pmul (storeGet st a) y)
    ∧ (∀ st2 r, idivOp st a y = .ok (st2, r) → r = a
      ∧ ∃ q, pdiv (storeGet st a) y = .ok q ∧ storeGet st2 a = q) := by
  refine ⟨⟨rfl, storeGet_storeSet_mem st a _ hmem⟩,
    ⟨rfl, storeGet_storeSet_mem st a _ hmem⟩,
    ⟨rfl, storeGet_storeSet_mem st a _ hmem⟩, ?_⟩
  intro st2 r hdiv
  unfold idivOp at hdiv
  cases hq : pdiv (storeGet st a) y with
  | error e => rw [hq] at hdiv; cases hdiv
  | ok q =>
    rw [hq] at hdiv
    cases hdiv
    exact ⟨rfl, q, rfl, storeGet_storeSet_mem st a _ hmem⟩

/-- C9 witness: on a store holding the series 2 at address 0, each in-place
operation with operand 2 keeps the address and stores the binary result. -/
theorem inplace_ops_mutate_in_identity_witness :
    ((iaddOp [(0, [(2 : ℚ)])] 0 [2]).2 = 0
      ∧ storeGet (iaddOp [(0, [(2 : ℚ)])] 0 [2]).1 0 =
          padd (storeGet [(0, [(2 : ℚ)])] 0) [2])
    ∧ ((isubOp [(0, [(2 : ℚ)])] 0 [2]).2 = 0
      ∧ storeGet (isubOp [(0, [(2 : ℚ)])] 0 [2]).1 0 =
          psub (storeGet [(0, [(2 : ℚ)])] 0) [2])
    ∧ ((imulOp [(0, [(2 : ℚ)])] 0 [2]).2 = 0
      ∧ storeGet (imulOp [(0, [(2 : ℚ)])] 0 [2]).1 0 =
          pmul (storeGet [(0, [(2 : ℚ)])] 0) [2])
    ∧ (∀ st2 r, idivOp [(0, [(2 : ℚ)])] 0 [2] = .ok (st2, r) → r = 0
      ∧ ∃ q, pdiv (storeGet [(0, [(2 : ℚ)])] 0) [2] = .ok q
          ∧ storeGet st2 0 = q) :=
  inplace_ops_mutate_in_identity [(0, [(2 : ℚ)])] 0 [2] (by simp)

/-! ## Lemmas and claim: custom-derivative registration snapshots state -/

theorem fhGet_fhSet_ne (h : FunctorHeap) (r1 r2 : Nat) (v : Int)
    (hne : r2 ≠ r1) : fhGet (fhSet h r1 v) r2 = fhGet h r2 := by
  induction h with
  | nil => rfl
  | cons p rest ih =>
    by_cases hp : p.1 = r1
    · simp only [fhSet, List.map_cons, if_pos hp]
      rw [fhGet, fhGet, if_neg (fun he => hne he.symm), if_neg ?_]
      · exact ih
      · rw [hp]
        exact fun he => hne he.symm
    · simp only [fhSet, List.map_cons, if_neg hp]
      rw [fhGet, fhGet]
      split
      · rfl
      · exact ih

theorem lt_freshRef_of_mem (h : FunctorHeap) (x : Nat)
    (hx : x ∈ h.map Prod.fst) : x < freshRef h := by
  have : ∀ l : List Nat, x ∈ l → x ≤ l.foldr max 0 := by
    intro l
    induction l with
    | nil => intro hx2; simp at hx2
    | cons b l ih =>
      intro hx2
      rcases List.mem_cons.mp hx2 with h2 | h2
      · subst h2
        exact le_max_left _ _
      · exact le_trans (ih h2) (le_max_right _ _)

  have := this (h.map Prod.fst) hx
  unfold freshRef
  omega

/-- C10: after register_custom_derivative(name, f) registers a stateful
callable f for a series type, subsequently mutating f's captured state does
not change the result of partial with respect to that variable: the
functor's state is snapshotted (deep-copied) at registration time, so
partial keeps returning the value computed from the state f had when
registered. -/
theorem custom_derivative_snapshot (st : DerivState) (name : String)
    (r : Nat) (v : Int) (p : Poly) (hr : r ∈ st.heap.map Prod.fst) :
    partialOf (setFunctorValue (registerCustomDerivative st name r) r v) name p
      = applyFunctor (fhGet st.heap r)
    ∧ partialOf (setFunctorValue (registerCustomDerivative st name r) r v) name p
      = partialOf (registerCustomDerivative st name r) name p := by
  have hcopy : freshRef st.heap ≠ r := by
    have := lt_freshRef_of_mem st.heap r hr
    omega
  have hlook : ((name, freshRef st.heap) :: st.registry).lookup name
      = some (freshRef st.heap) := by
    simp [List.lookup]
  have hget : fhGet (fhSet ((freshRef st.heap, fhGet st.heap r) :: st.heap) r v)
      (freshRef st.heap) = fhGet st.heap r := by
    rw [fhGet_fhSet_ne _ _ _ _ hcopy, fhGet, if_pos rfl]
  constructor
  · unfold partialOf setFunctorValue registerCustomDerivative
    simp only [hlook]
    rw [hget]
  · unfold partialOf setFunctorValue registerCustomDerivative
    simp only [hlook]
    rw [hget, fhGet, if_pos rfl]

/-- C10 witness: with one functor of state 5 registered for "x" and then
mutated to 42, partial still returns the constant series 5. -/
theorem custom_derivative_snapshot_witness :
    partialOf (setFunctorValue
        (registerCustomDerivative ⟨[(1, 5)], []⟩ "x" 1) 1 42) "x" [0, 1]
      = applyFunctor (fhGet [(1, 5)] 1)
    ∧ partialOf (setFunctorValue
        (registerCustomDerivative ⟨[(1, 5)], []⟩ "x" 1) 1 42) "x" [0, 1]
      = partialOf (registerCustomDerivative ⟨[(1, 5)], []⟩ "x" 1) "x" [0, 1] :=
  custom_derivative_snapshot ⟨[(1, 5)], []⟩ "x" 1 42 [0, 1] (by simp)

end Pyranha
